import Mathlib

/-!
# Thunder Hoop II driver (`src/mame/drivers/thoop2.cpp`)

A shallow embedding of the driver's declarative tables (address maps, DIP
switch ports, graphics layouts, ROM region sizes) and of its four memory
handlers (`machine_start`, `OKIM6295_bankswitch_w`, `shareram_w`,
`shareram_r`), followed by the properties proved about them.

Conventions
* addresses, offsets and data are `Nat`; a store into a `u8` or `u16` cell
  truncates explicitly with `% 256` / `% 65536`;
* an access the C++ code would perform outside its backing storage, or that
  the framework would reject with a fatal error, yields `none`.
-/

namespace Thoop2

/-! ## Address maps -/

/-- Tags of the input ports read through `AM_READ_PORT`. -/
inductive ioport_tag
  | DSW1 | DSW2 | P1 | P2 | SYSTEM
  deriving DecidableEq

/-- Tags of the memory shares named by `AM_SHARE`. -/
inductive share_tag
  | videoram | vregs | palette | spriteram | shareram
  deriving DecidableEq

/-- Handler descriptors used by the three address maps of the driver, one
constructor per `AM_*` macro combination that occurs in the file. -/
inductive map_handler
  | AM_ROM
  | AM_RAM
  | AM_RAM_SHARE (share : share_tag)
  | AM_RAM_WRITE_vram_w
  | AM_WRITEONLY_SHARE (share : share_tag)
  | AM_DEVWRITE_watchdog_reset16_w
  | AM_RAM_DEVWRITE_palette_write16
  | AM_READ_PORT (port : ioport_tag)
  | AM_DEVWRITE8_MOD_outlatch_write_d0
  | AM_WRITE8_OKIM6295_bankswitch_w
  | AM_DEVREADWRITE8_oki
  | AM_READWRITE_shareram
  | AM_ROMBANK_okibank
  deriving DecidableEq

/-- One `AM_RANGE(addrstart, addrend)` line with its optional
`AM_SELECT(addrselect)` (0 when absent) and its handler. -/
structure address_map_entry where
  addrstart : Nat
  addrend : Nat
  addrselect : Nat
  handler : map_handler
  deriving DecidableEq

/-- Address map `mcu_hostmem_map` (8-bit bus of the DS5002FP host interface). -/
def mcu_hostmem_map : List address_map_entry :=
  [ ⟨0x8000, 0xffff, 0, .AM_READWRITE_shareram⟩ ]

/-- Address map `thoop2_map` (16-bit program space of the 68000). -/
def thoop2_map : List address_map_entry :=
  [ ⟨0x000000, 0x0fffff, 0, .AM_ROM⟩,
    ⟨0x100000, 0x101fff, 0, .AM_RAM_WRITE_vram_w⟩,
    ⟨0x108000, 0x108007, 0, .AM_WRITEONLY_SHARE .vregs⟩,
    ⟨0x10800c, 0x10800d, 0, .AM_DEVWRITE_watchdog_reset16_w⟩,
    ⟨0x200000, 0x2007ff, 0, .AM_RAM_DEVWRITE_palette_write16⟩,
    ⟨0x440000, 0x440fff, 0, .AM_RAM_SHARE .spriteram⟩,
    ⟨0x700000, 0x700001, 0, .AM_READ_PORT .DSW2⟩,
    ⟨0x700002, 0x700003, 0, .AM_READ_PORT .DSW1⟩,
    ⟨0x700004, 0x700005, 0, .AM_READ_PORT .P1⟩,
    ⟨0x700006, 0x700007, 0, .AM_READ_PORT .P2⟩,
    ⟨0x700008, 0x700009, 0, .AM_READ_PORT .SYSTEM⟩,
    ⟨0x70000a, 0x70000b, 0x000070, .AM_DEVWRITE8_MOD_outlatch_write_d0⟩,
    ⟨0x70000c, 0x70000d, 0, .AM_WRITE8_OKIM6295_bankswitch_w⟩,
    ⟨0x70000e, 0x70000f, 0, .AM_DEVREADWRITE8_oki⟩,
    ⟨0xfe0000, 0xfe7fff, 0, .AM_RAM⟩,
    ⟨0xfe8000, 0xfeffff, 0, .AM_RAM_SHARE .shareram⟩ ]

/-- Address map `oki_map` (8-bit sample space of the OKIM6295). -/
def oki_map : List address_map_entry :=
  [ ⟨0x00000, 0x2ffff, 0, .AM_ROM⟩,
    ⟨0x30000, 0x3ffff, 0, .AM_ROMBANK_okibank⟩ ]

/-- Modelled from the spec: the framework's address decoding, which is not
part of the driver file. An entry serves address `a` when `a`, with the
address lines named by `AM_SELECT` cleared, lies in `addrstart .. addrend`:
the select lines are not decoded, they are handed to the handler. -/
def address_map_entry.covers (e : address_map_entry) (a : Nat) : Bool :=
  decide (e.addrstart ≤ a ^^^ (a &&& e.addrselect)) &&
    decide (a ^^^ (a &&& e.addrselect) ≤ e.addrend)

/-- Modelled from the spec: the framework's dispatch, the entry of a map that
serves address `a` (the first one in declaration order), if any. -/
def lookup (map : List address_map_entry) (a : Nat) : Option address_map_entry :=
  map.find? (fun e => e.covers a)

/-! ## OKI sample ROM banking -/

/-- Length in bytes of `ROM_REGION( 0x100000, "oki", 0 )`. -/
def oki_region_bytes : Nat := 0x100000

/-- Modelled from the spec: the framework's `memory_bank`, not part of the
driver file. `entries` holds one slot per bank entry: `none` for a slot that
has no base (a null pointer), `some off` for a slot whose page starts `off`
bytes from the base of the backing region. `curentry` is the selector. -/
structure memory_bank where
  entries : List (Option Nat)
  curentry : Nat
  deriving DecidableEq

/-- Modelled from the spec: `memory_bank::configure_entry(entrynum, base)`
grows the entry table to hold slot `entrynum` and binds that slot to `base`. -/
def memory_bank.configure_entry (b : memory_bank) (entrynum base : Nat) : memory_bank :=
  { b with
    entries :=
      (b.entries ++ List.replicate (entrynum + 1 - b.entries.length) none).set entrynum
        (some base) }

/-- Modelled from the spec: `memory_bank::configure_entries(startentry,
numentries, base, stride)` binds entry `startentry + i` to `base + stride * i`
for every `i < numentries`. -/
def memory_bank.configure_entries (b : memory_bank) (startentry numentries base stride : Nat) :
    memory_bank :=
  (List.range numentries).foldl
    (fun acc i => acc.configure_entry (startentry + i) (base + stride * i)) b

/-- Modelled from the spec: `memory_bank::set_entry(entrynum)` selects an
entry; selecting a slot outside the table, or one without a base, is a fatal
error of the framework. -/
def memory_bank.set_entry (b : memory_bank) (entrynum : Nat) : Option memory_bank :=
  match b.entries[entrynum]? with
  | some (some _) => some { b with curentry := entrynum }
  | _ => none

/-- The part of `thoop2_state` (and of the regions it points into) that the
handlers of this file touch.
* `oki`: contents of ROM region "oki", by byte offset;
* `okibank`: the bank "okibank";
* `shareram`: the share "shareram" as the `u16` cells `m_shareram` points to,
  by word index, each cell holding the value of the 16-bit word. -/
structure thoop2_state where
  oki : Nat → Nat
  okibank : memory_bank
  shareram : Nat → Nat

/-- Source `thoop2_state::machine_start`:
`membank("okibank")->configure_entries(0, 16, memregion("oki")->base(), 0x10000)`.
Offsets are taken from the base of region "oki", so the base is 0. -/
def machine_start (s : thoop2_state) : thoop2_state :=
  { s with okibank := s.okibank.configure_entries 0 16 0 0x10000 }

/-- Source `thoop2_state::OKIM6295_bankswitch_w`:
`membank("okibank")->set_entry(data & 0x0f)`. -/
def OKIM6295_bankswitch_w (s : thoop2_state) (data : Nat) : Option thoop2_state :=
  (s.okibank.set_entry (data &&& 0x0f)).map (fun b => { s with okibank := b })

/-- Modelled from the spec: the framework's read path for the OKIM6295's
address space, not part of the driver file. It gives the byte offset into
region "oki" that a read of OKI address `a` through `oki_map` fetches:
`AM_ROM` maps the region one to one (the range starts at 0, so the offset is
the address), `AM_ROMBANK` adds the offset inside the window to the page of
the selected bank entry. `none` for an unmapped address or a selector without
a configured page. -/
def oki_rom_offset (s : thoop2_state) (a : Nat) : Option Nat :=
  match lookup oki_map a with
  | some e =>
    match e.handler with
    | .AM_ROM => some a
    | .AM_ROMBANK_okibank =>
      match s.okibank.entries[s.okibank.curentry]? with
      | some (some page) => some (page + (a - e.addrstart))
      | _ => none
    | _ => none
  | none => none

/-- Modelled from the spec: a read of OKI address `a` through `oki_map`, the
byte of region "oki" at the offset computed by `oki_rom_offset`; `none` when
that offset is outside the region (or the address is unmapped). -/
def oki_read (s : thoop2_state) (a : Nat) : Option Nat :=
  match oki_rom_offset s a with
  | some off => if off < oki_region_bytes then some (s.oki off) else none
  | none => none

/-! ## RAM shared between the 68000 and the DS5002FP -/

/-- Byte order of the machine the emulator runs on (`ENDIANNESS_NATIVE`). The
driver is compiled for either; every handler below takes it as a parameter. -/
inductive endianness_t
  | ENDIANNESS_LITTLE
  | ENDIANNESS_BIG
  deriving DecidableEq

/-- Modelled from the spec: framework macro `NATIVE_ENDIAN_VALUE_LE_BE(leval,
beval)`, which picks `leval` on a little-endian host and `beval` on a
big-endian one. -/
def NATIVE_ENDIAN_VALUE_LE_BE (host : endianness_t) (leval beval : Nat) : Nat :=
  match host with
  | .ENDIANNESS_LITTLE => leval
  | .ENDIANNESS_BIG => beval

/-- Modelled from the spec: framework macro `BYTE_XOR_BE(a)`, that is
`a ^ NATIVE_ENDIAN_VALUE_LE_BE(1, 0)`: `a xor 1` on a little-endian host and
`a` on a big-endian one. -/
def BYTE_XOR_BE (host : endianness_t) (a : Nat) : Nat :=
  a ^^^ NATIVE_ENDIAN_VALUE_LE_BE host 1 0

/-- Size in bytes of the share "shareram", the length of its range
`AM_RANGE(0xfe8000, 0xfeffff)` in `thoop2_map`. -/
def shareram_bytes : Nat := 0xfeffff - 0xfe8000 + 1

/-- Load through `reinterpret_cast<u8 const *>(m_shareram.target())[i]`: byte
`i` of the memory image of the `u16` cells. Cell `i / 2` holds its low byte
first on a little-endian host and its high byte first on a big-endian one. -/
def u8_load (host : endianness_t) (cells : Nat → Nat) (i : Nat) : Nat :=
  let w := cells (i / 2) % 65536
  match host with
  | .ENDIANNESS_LITTLE => if i % 2 = 0 then w % 256 else w / 256
  | .ENDIANNESS_BIG => if i % 2 = 0 then w / 256 else w % 256

/-- Store through `reinterpret_cast<u8 *>(m_shareram.target())[i] = data`:
replaces byte `i` of the memory image of the `u16` cells, that is one half of
cell `i / 2`, and keeps the other half. -/
def u8_store (host : endianness_t) (cells : Nat → Nat) (i data : Nat) : Nat → Nat :=
  let w := cells (i / 2) % 65536
  let lo := w % 256
  let hi := w / 256
  let d := data % 256
  Function.update cells (i / 2)
    (match host with
     | .ENDIANNESS_LITTLE => if i % 2 = 0 then hi * 256 + d else d * 256 + lo
     | .ENDIANNESS_BIG => if i % 2 = 0 then d * 256 + lo else hi * 256 + d)

/-- Source `thoop2_state::shareram_w`:
`reinterpret_cast<u8 *>(m_shareram.target())[BYTE_XOR_BE(offset)] = data`.
`none` when the index falls outside the share. -/
def shareram_w (host : endianness_t) (s : thoop2_state) (offset data : Nat) :
    Option thoop2_state :=
  if BYTE_XOR_BE host offset < shareram_bytes then
    some { s with shareram := u8_store host s.shareram (BYTE_XOR_BE host offset) data }
  else none

/-- Source `thoop2_state::shareram_r`:
`return reinterpret_cast<u8 const *>(m_shareram.target())[BYTE_XOR_BE(offset)]`.
`none` when the index falls outside the share. -/
def shareram_r (host : endianness_t) (s : thoop2_state) (offset : Nat) : Option Nat :=
  if BYTE_XOR_BE host offset < shareram_bytes then
    some (u8_load host s.shareram (BYTE_XOR_BE host offset))
  else none

/-- Modelled from the spec: a read by the MCU at address `a` of its host
memory space, as the framework dispatches it through `mcu_hostmem_map`, whose
only handler pair is `shareram_r` / `shareram_w`, called with the offset of
`a` from the start of the range. -/
def mcu_hostmem_read (host : endianness_t) (s : thoop2_state) (a : Nat) : Option Nat :=
  match lookup mcu_hostmem_map a with
  | some e =>
    match e.handler with
    | .AM_READWRITE_shareram => shareram_r host s (a - e.addrstart)
    | _ => none
  | none => none

/-- Modelled from the spec: a write by the MCU of `data` at address `a` of its
host memory space, dispatched through `mcu_hostmem_map` like
`mcu_hostmem_read`. -/
def mcu_hostmem_write (host : endianness_t) (s : thoop2_state) (a data : Nat) :
    Option thoop2_state :=
  match lookup mcu_hostmem_map a with
  | some e =>
    match e.handler with
    | .AM_READWRITE_shareram => shareram_w host s (a - e.addrstart) data
    | _ => none
  | none => none

/-- Modelled from the spec: a 16-bit write by the 68000 at (even) byte address
`a`, as the framework performs it for the `AM_RAM AM_SHARE("shareram")` entry
of `thoop2_map`: the value is stored in the `u16` cell of the share that the
address selects. Addresses served by any other entry are outside this
embedding and give `none`. -/
def maincpu_write_word (s : thoop2_state) (a data : Nat) : Option thoop2_state :=
  match lookup thoop2_map a with
  | some e =>
    match e.handler with
    | .AM_RAM_SHARE .shareram =>
      some { s with shareram := Function.update s.shareram ((a - e.addrstart) / 2) (data % 65536) }
    | _ => none
  | none => none

/-- Modelled from the spec: an 8-bit read by the 68000 at byte address `a` of
the `AM_RAM AM_SHARE("shareram")` entry of `thoop2_map`. The 68000 is
big-endian: an even address is the high byte (D15-D8) of the word, an odd
address its low byte (D7-D0). -/
def maincpu_read_byte (s : thoop2_state) (a : Nat) : Option Nat :=
  match lookup thoop2_map a with
  | some e =>
    match e.handler with
    | .AM_RAM_SHARE .shareram =>
      let w := s.shareram ((a - e.addrstart) / 2) % 65536
      some (if (a - e.addrstart) % 2 = 0 then w / 256 else w % 256)
    | _ => none
  | none => none

/-! ## DIP switch ports -/

/-- Labels of the DIP switch fields of `INPUT_PORTS_START( thoop2 )`. -/
inductive dip_label
  | Coin_B | Coin_A | Credit_configuration | Free_Play
  | Difficulty | Unknown | Lives | Demo_Sounds
  deriving DecidableEq

/-- Active level given to `PORT_SERVICE`. -/
inductive active_level
  | IP_ACTIVE_LOW
  | IP_ACTIVE_HIGH
  deriving DecidableEq

/-- One field of a DIP switch port: `PORT_DIPNAME(mask, defvalue, label)`
followed by the values of its `PORT_DIPSETTING` lines in source order, or
`PORT_SERVICE(mask, level)`. -/
inductive port_field
  | PORT_DIPNAME (mask defvalue : Nat) (label : dip_label) (settings : List Nat)
  | PORT_SERVICE (mask : Nat) (level : active_level)
  deriving DecidableEq

/-- The bits of the port a field occupies. -/
def port_field.mask : port_field → Nat
  | .PORT_DIPNAME mask _ _ _ => mask
  | .PORT_SERVICE mask _ => mask

/-- Port `PORT_START("DSW1")`. -/
def DSW1 : List port_field :=
  [ .PORT_DIPNAME 0x07 0x07 .Coin_B [0x02, 0x03, 0x04, 0x05, 0x06, 0x01, 0x00, 0x07],
    .PORT_DIPNAME 0x38 0x38 .Coin_A [0x38, 0x00, 0x08, 0x30, 0x28, 0x20, 0x18, 0x10],
    .PORT_DIPNAME 0x40 0x40 .Credit_configuration [0x40, 0x00],
    .PORT_DIPNAME 0x80 0x80 .Free_Play [0x80, 0x00] ]

/-- Port `PORT_START("DSW2")`. -/
def DSW2 : List port_field :=
  [ .PORT_DIPNAME 0x03 0x03 .Difficulty [0x03, 0x02, 0x01, 0x00],
    .PORT_DIPNAME 0x04 0x04 .Unknown [0x04, 0x00],
    .PORT_DIPNAME 0x18 0x18 .Lives [0x18, 0x10, 0x08, 0x00],
    .PORT_DIPNAME 0x20 0x20 .Demo_Sounds [0x00, 0x20],
    .PORT_DIPNAME 0x40 0x40 .Unknown [0x40, 0x00],
    .PORT_SERVICE 0x80 .IP_ACTIVE_LOW ]

/-- The C expression `v & ~mask` on 32-bit unsigned port values
(`ioport_value`), for `mask` below `2^32`: the complement is taken on 32 bits. -/
def and_not_mask (v mask : Nat) : Nat :=
  v &&& (0xffffffff ^^^ mask)

/-! ## Graphics layouts -/

/-- The fields of the framework's `gfx_layout` that the driver fills in:
`{ width, height, total, planes, planeoffset, xoffset, yoffset, charincrement }`. -/
structure gfx_layout where
  width : Nat
  height : Nat
  total : Nat
  planes : Nat
  planeoffset : List Nat
  xoffset : List Nat
  yoffset : List Nat
  charincrement : Nat
  deriving DecidableEq

/-- Layout `thoop2_tilelayout` (8x8 tiles). -/
def thoop2_tilelayout : gfx_layout :=
  ⟨8, 8,
   0x400000/16,
   4,
   [0*0x400000*8+8, 0*0x400000*8, 1*0x400000*8+8, 1*0x400000*8],
   [0, 1, 2, 3, 4, 5, 6, 7],
   [0*16, 1*16, 2*16, 3*16, 4*16, 5*16, 6*16, 7*16],
   16*8⟩

/-- Layout `thoop2_tilelayout_16` (16x16 tiles). -/
def thoop2_tilelayout_16 : gfx_layout :=
  ⟨16, 16,
   0x400000/64,
   4,
   [0*0x400000*8+8, 0*0x400000*8, 1*0x400000*8+8, 1*0x400000*8],
   [0, 1, 2, 3, 4, 5, 6, 7,
    16*16+0, 16*16+1, 16*16+2, 16*16+3, 16*16+4, 16*16+5, 16*16+6, 16*16+7],
   [0*16, 1*16, 2*16, 3*16, 4*16, 5*16, 6*16, 7*16,
    8*16, 9*16, 10*16, 11*16, 12*16, 13*16, 14*16, 15*16],
   64*8⟩

/-- Length in bytes of `ROM_REGION( 0x800000, "gfx1", 0 )`. -/
def gfx1_region_bytes : Nat := 0x800000

/-- One `GFXDECODE_ENTRY( "gfx1", start, layout, color_base, total_colors )`. -/
structure gfxdecode_entry where
  start : Nat
  layout : gfx_layout
  color_base : Nat
  total_colors : Nat
  deriving DecidableEq

/-- Table `GFXDECODE_START( thoop2 )`; both entries decode region "gfx1". -/
def gfxdecode_thoop2 : List gfxdecode_entry :=
  [ ⟨0x000000, thoop2_tilelayout, 0, 64⟩,
    ⟨0x000000, thoop2_tilelayout_16, 0, 64⟩ ]

/-- Modelled from the spec: the bit of the region that the framework's
graphics decoder, not part of the driver file, reads for plane `p` of pixel
`(x, y)` of tile `tile` under layout `L`:
`tile * charincrement + planeoffset[p] + xoffset[x] + yoffset[y]`. -/
def gfx_layout.bitaddr (L : gfx_layout) (tile p x y : Nat) : Nat :=
  tile * L.charincrement + L.planeoffset.getD p 0 + L.xoffset.getD x 0 + L.yoffset.getD y 0

/-- Bit of region "gfx1" read for a `GFXDECODE_ENTRY`: the layout's bit
address past the entry's starting byte. -/
def gfxdecode_entry.bitaddr (e : gfxdecode_entry) (tile p x y : Nat) : Nat :=
  e.start * 8 + e.layout.bitaddr tile p x y

/-! ## A concrete machine state -/

/-- A sample state used to evaluate the handlers: region "oki" holds at offset
`i` the byte `i % 256`, the bank is fresh (no entry configured), and cell `k`
of the share holds `(257 * k) % 65536`. -/
def sample_state : thoop2_state :=
  { oki := fun i => i % 256
    okibank := ⟨[], 0⟩
    shareram := fun k => (257 * k) % 65536 }

/-! ## Lemmas on the bank table -/

theorem configure_entry_getElem_self (b : memory_bank) (n base : Nat) :
    (b.configure_entry n base).entries[n]? = some (some base) := by
  unfold memory_bank.configure_entry
  simp only
  rw [List.getElem?_set_self]
  simp only [List.length_append, List.length_replicate]
  omega

theorem configure_entry_getElem_of_ne (b : memory_bank) (n base m : Nat) (x : Option Nat)
    (hne : m ≠ n) (hm : b.entries[m]? = some x) :
    (b.configure_entry n base).entries[m]? = some x := by
  have hlt : m < b.entries.length := by
    rcases Nat.lt_or_ge m b.entries.length with h | h
    · exact h
    · rw [List.getElem?_eq_none h] at hm
      cases hm
  unfold memory_bank.configure_entry
  simp only
  rw [List.getElem?_set_ne (Ne.symm hne), List.getElem?_append_left hlt]
  exact hm

theorem configure_entries_getElem (stride base startentry : Nat) :
    ∀ (numentries : Nat) (b : memory_bank) (i : Nat), i < numentries →
      (b.configure_entries startentry numentries base stride).entries[startentry + i]? =
        some (some (base + stride * i)) := by
  intro numentries
  induction numentries with
  | zero => intro b i hi; omega
  | succ k ih =>
    intro b i hi
    unfold memory_bank.configure_entries
    rw [List.range_succ, List.foldl_append]
    simp only [List.foldl_cons, List.foldl_nil]
    rcases Nat.lt_or_ge i k with hlt | hge
    · apply configure_entry_getElem_of_ne
      · omega
      · exact ih b i hlt
    · have hik : i = k := by omega
      subst hik
      exact configure_entry_getElem_self _ _ _

theorem machine_start_entries (s : thoop2_state) (i : Nat) (hi : i < 16) :
    (machine_start s).okibank.entries[i]? = some (some (i * 0x10000)) := by
  have h := configure_entries_getElem 0x10000 0 0 16 s.okibank i hi
  simp only [Nat.zero_add] at h
  unfold machine_start
  simp only
  rw [h, Nat.mul_comm]

theorem and_0x0f_lt (data : Nat) : data &&& 0x0f < 16 :=
  Nat.lt_of_le_of_lt Nat.and_le_right (by decide)

/-! ## Lemmas on address decoding -/

theorem covers_of_select_zero (e : address_map_entry) (a : Nat) (h : e.addrselect = 0) :
    e.covers a = (decide (e.addrstart ≤ a) && decide (a ≤ e.addrend)) := by
  unfold address_map_entry.covers
  rw [h, Nat.and_zero, Nat.xor_zero]

theorem lookup_oki_fixed (a : Nat) (ha : a ≤ 0x2ffff) :
    lookup oki_map a = some ⟨0x00000, 0x2ffff, 0, .AM_ROM⟩ := by
  unfold lookup oki_map
  rw [List.find?_cons_of_pos]
  rw [covers_of_select_zero _ _ rfl]
  simp only [Nat.zero_le, decide_True, Bool.true_and, decide_eq_true_eq]
  exact ha

theorem lookup_oki_banked (a : Nat) (h1 : 0x30000 ≤ a) (h2 : a ≤ 0x3ffff) :
    lookup oki_map a = some ⟨0x30000, 0x3ffff, 0, .AM_ROMBANK_okibank⟩ := by
  unfold lookup oki_map
  rw [List.find?_cons_of_neg, List.find?_cons_of_pos]
  · rw [covers_of_select_zero _ _ rfl]
    simp only [Bool.and_eq_true, decide_eq_true_eq]
    exact ⟨h1, h2⟩
  · rw [covers_of_select_zero _ _ rfl]
    simp only [Bool.and_eq_true, decide_eq_true_eq]
    omega

theorem lookup_oki_unmapped (a : Nat) (h : 0x3ffff < a) : lookup oki_map a = none := by
  unfold lookup oki_map
  rw [List.find?_cons_of_neg, List.find?_cons_of_neg, List.find?_nil]
  · rw [covers_of_select_zero _ _ rfl]
    simp only [Bool.and_eq_true, decide_eq_true_eq]
    omega
  · rw [covers_of_select_zero _ _ rfl]
    simp only [Bool.and_eq_true, decide_eq_true_eq]
    omega

theorem oki_read_fixed (s : thoop2_state) (a : Nat) (ha : a ≤ 0x2ffff) :
    oki_read s a = some (s.oki a) := by
  unfold oki_read oki_rom_offset
  rw [lookup_oki_fixed a ha]
  simp only [oki_region_bytes]
  rw [if_pos (by omega)]

theorem oki_rom_offset_banked (s : thoop2_state) (a page : Nat) (h1 : 0x30000 ≤ a)
    (h2 : a ≤ 0x3ffff) (hp : s.okibank.entries[s.okibank.curentry]? = some (some page)) :
    oki_rom_offset s a = some (page + (a - 0x30000)) := by
  unfold oki_rom_offset
  rw [lookup_oki_banked a h1 h2]
  simp only [hp]

theorem oki_read_unmapped (s : thoop2_state) (a : Nat) (h : 0x3ffff < a) :
    oki_read s a = none := by
  unfold oki_read oki_rom_offset
  rw [lookup_oki_unmapped a h]

theorem bankswitch_of_configured (s : thoop2_state) (data page : Nat)
    (h : s.okibank.entries[data &&& 0x0f]? = some (some page)) :
    OKIM6295_bankswitch_w s data =
      some { s with okibank := { s.okibank with curentry := data &&& 0x0f } } := by
  unfold OKIM6295_bankswitch_w memory_bank.set_entry
  simp only [h, Option.map_some']

theorem clear_div_two (a m : Nat) : (a ^^^ (a &&& m)) / 2 = (a / 2) ^^^ ((a / 2) &&& (m / 2)) := by
  rw [Nat.xor_div_two, Nat.and_div_two]

theorem clear_mod_two (a m : Nat) :
    (a ^^^ (a &&& m)) % 2 = if m % 2 = 1 then 0 else a % 2 := by
  have h := @Nat.xor_mod_two_eq_one a (a &&& m)
  have h' := @Nat.and_mod_two_eq_one a m
  have h2 : (a ^^^ (a &&& m)) % 2 < 2 := Nat.mod_lt _ (by decide)
  have h3 : a % 2 < 2 := Nat.mod_lt _ (by decide)
  have h4 : m % 2 < 2 := Nat.mod_lt _ (by decide)
  split <;> omega

theorem clear_0x70 (a : Nat) : a ^^^ (a &&& 0x70) = a - 16 * ((a / 16) % 8) := by
  have d1 : (a ^^^ (a &&& 0x70)) / 2 = (a / 2) ^^^ ((a / 2) &&& 0x38) := clear_div_two a 0x70
  have m1 : (a ^^^ (a &&& 0x70)) % 2 = a % 2 := clear_mod_two a 0x70
  have d2 : ((a / 2) ^^^ ((a / 2) &&& 0x38)) / 2 = (a / 2 / 2) ^^^ ((a / 2 / 2) &&& 0x1c) :=
    clear_div_two (a / 2) 0x38
  have m2 : ((a / 2) ^^^ ((a / 2) &&& 0x38)) % 2 = a / 2 % 2 := clear_mod_two (a / 2) 0x38
  have d3 : ((a / 2 / 2) ^^^ ((a / 2 / 2) &&& 0x1c)) / 2 =
      (a / 2 / 2 / 2) ^^^ ((a / 2 / 2 / 2) &&& 0xe) := clear_div_two (a / 2 / 2) 0x1c
  have m3 : ((a / 2 / 2) ^^^ ((a / 2 / 2) &&& 0x1c)) % 2 = a / 2 / 2 % 2 :=
    clear_mod_two (a / 2 / 2) 0x1c
  have d4 : ((a / 2 / 2 / 2) ^^^ ((a / 2 / 2 / 2) &&& 0xe)) / 2 =
      (a / 2 / 2 / 2 / 2) ^^^ ((a / 2 / 2 / 2 / 2) &&& 7) := clear_div_two (a / 2 / 2 / 2) 0xe
  have m4 : ((a / 2 / 2 / 2) ^^^ ((a / 2 / 2 / 2) &&& 0xe)) % 2 = a / 2 / 2 / 2 % 2 :=
    clear_mod_two (a / 2 / 2 / 2) 0xe
  have d5 : ((a / 2 / 2 / 2 / 2) ^^^ ((a / 2 / 2 / 2 / 2) &&& 7)) / 2 =
      (a / 2 / 2 / 2 / 2 / 2) ^^^ ((a / 2 / 2 / 2 / 2 / 2) &&& 3) :=
    clear_div_two (a / 2 / 2 / 2 / 2) 7
  have m5 : ((a / 2 / 2 / 2 / 2) ^^^ ((a / 2 / 2 / 2 / 2) &&& 7)) % 2 = 0 :=
    clear_mod_two (a / 2 / 2 / 2 / 2) 7
  have d6 : ((a / 2 / 2 / 2 / 2 / 2) ^^^ ((a / 2 / 2 / 2 / 2 / 2) &&& 3)) / 2 =
      (a / 2 / 2 / 2 / 2 / 2 / 2) ^^^ ((a / 2 / 2 / 2 / 2 / 2 / 2) &&& 1) :=
    clear_div_two (a / 2 / 2 / 2 / 2 / 2) 3
  have m6 : ((a / 2 / 2 / 2 / 2 / 2) ^^^ ((a / 2 / 2 / 2 / 2 / 2) &&& 3)) % 2 = 0 :=
    clear_mod_two (a / 2 / 2 / 2 / 2 / 2) 3
  have d7 : ((a / 2 / 2 / 2 / 2 / 2 / 2) ^^^ ((a / 2 / 2 / 2 / 2 / 2 / 2) &&& 1)) / 2 =
      a / 2 / 2 / 2 / 2 / 2 / 2 / 2 := by
    rw [clear_div_two]
    simp
  have m7 : ((a / 2 / 2 / 2 / 2 / 2 / 2) ^^^ ((a / 2 / 2 / 2 / 2 / 2 / 2) &&& 1)) % 2 = 0 :=
    clear_mod_two (a / 2 / 2 / 2 / 2 / 2 / 2) 1
  generalize a ^^^ (a &&& 0x70) = c0 at *
  generalize (a / 2) ^^^ ((a / 2) &&& 0x38) = c1 at *
  generalize (a / 2 / 2) ^^^ ((a / 2 / 2) &&& 0x1c) = c2 at *
  generalize (a / 2 / 2 / 2) ^^^ ((a / 2 / 2 / 2) &&& 0xe) = c3 at *
  generalize (a / 2 / 2 / 2 / 2) ^^^ ((a / 2 / 2 / 2 / 2) &&& 7) = c4 at *
  generalize (a / 2 / 2 / 2 / 2 / 2) ^^^ ((a / 2 / 2 / 2 / 2 / 2) &&& 3) = c5 at *
  generalize (a / 2 / 2 / 2 / 2 / 2 / 2) ^^^ ((a / 2 / 2 / 2 / 2 / 2 / 2) &&& 1) = c6 at *
  omega

theorem xor_one_div_two (o : Nat) : (o ^^^ 1) / 2 = o / 2 := by
  rw [Nat.xor_div_two]
  simp

theorem xor_one_mod_two (o : Nat) : (o ^^^ 1) % 2 = 1 - o % 2 := by
  have h := @Nat.xor_mod_two_eq_one o 1
  have h2 : (o ^^^ 1) % 2 < 2 := Nat.mod_lt _ (by decide)
  have h3 : o % 2 < 2 := Nat.mod_lt _ (by decide)
  simp only [Nat.one_mod, iff_true] at h
  omega

theorem covers_iff (e : address_map_entry) (a : Nat) :
    e.covers a = true ↔
      e.addrstart ≤ a ^^^ (a &&& e.addrselect) ∧ a ^^^ (a &&& e.addrselect) ≤ e.addrend := by
  unfold address_map_entry.covers
  simp only [Bool.and_eq_true, decide_eq_true_eq]

theorem lookup_cons_of_not_covers (e : address_map_entry) (l : List address_map_entry) (a : Nat)
    (h : ¬ (e.addrstart ≤ a ^^^ (a &&& e.addrselect) ∧ a ^^^ (a &&& e.addrselect) ≤ e.addrend)) :
    lookup (e :: l) a = lookup l a := by
  unfold lookup
  rw [List.find?_cons_of_neg]
  rw [covers_iff]
  exact h

theorem lookup_cons_of_covers (e : address_map_entry) (l : List address_map_entry) (a : Nat)
    (h : e.addrstart ≤ a ^^^ (a &&& e.addrselect) ∧ a ^^^ (a &&& e.addrselect) ≤ e.addrend) :
    lookup (e :: l) a = some e := by
  unfold lookup
  rw [List.find?_cons_of_pos]
  rw [covers_iff]
  exact h

theorem lookup_thoop2_shareram (a : Nat) (h1 : 0xfe8000 ≤ a) (h2 : a ≤ 0xfeffff) :
    lookup thoop2_map a = some ⟨0xfe8000, 0xfeffff, 0, .AM_RAM_SHARE .shareram⟩ := by
  unfold thoop2_map
  have hc := clear_0x70 a
  iterate 15
    rw [lookup_cons_of_not_covers]
    swap
    · simp only [Nat.and_zero, Nat.xor_zero, hc]
      omega
  rw [lookup_cons_of_covers]
  simp only [Nat.and_zero, Nat.xor_zero]
  omega

theorem lookup_mcu_hostmem (a : Nat) (h1 : 0x8000 ≤ a) (h2 : a ≤ 0xffff) :
    lookup mcu_hostmem_map a = some ⟨0x8000, 0xffff, 0, .AM_READWRITE_shareram⟩ := by
  unfold mcu_hostmem_map
  rw [lookup_cons_of_covers]
  simp only [Nat.and_zero, Nat.xor_zero]
  omega

/-! ## Lemmas on the byte view of the shared RAM -/

theorem BYTE_XOR_BE_div_two (host : endianness_t) (o : Nat) : BYTE_XOR_BE host o / 2 = o / 2 := by
  cases host
  · exact xor_one_div_two o
  · simp only [BYTE_XOR_BE, NATIVE_ENDIAN_VALUE_LE_BE, Nat.xor_zero]

theorem BYTE_XOR_BE_little_mod_two (o : Nat) :
    BYTE_XOR_BE .ENDIANNESS_LITTLE o % 2 = 1 - o % 2 :=
  xor_one_mod_two o

theorem BYTE_XOR_BE_big (o : Nat) : BYTE_XOR_BE .ENDIANNESS_BIG o = o := by
  simp only [BYTE_XOR_BE, NATIVE_ENDIAN_VALUE_LE_BE, Nat.xor_zero]

theorem BYTE_XOR_BE_le (host : endianness_t) (o : Nat) (ho : o ≤ 0x7fff) :
    BYTE_XOR_BE host o ≤ 0x7fff := by
  have hd := BYTE_XOR_BE_div_two host o
  omega

theorem BYTE_XOR_BE_injective (host : endianness_t) (o o' : Nat)
    (h : BYTE_XOR_BE host o = BYTE_XOR_BE host o') : o = o' := by
  cases host
  · have hd := BYTE_XOR_BE_div_two .ENDIANNESS_LITTLE o
    have hd' := BYTE_XOR_BE_div_two .ENDIANNESS_LITTLE o'
    have hm := BYTE_XOR_BE_little_mod_two o
    have hm' := BYTE_XOR_BE_little_mod_two o'
    rw [h] at hd hm
    omega
  · rw [BYTE_XOR_BE_big, BYTE_XOR_BE_big] at h
    exact h

theorem u8_load_little (cells : Nat → Nat) (i x : Nat) (h : cells (i / 2) = x) :
    u8_load .ENDIANNESS_LITTLE cells i =
      if i % 2 = 0 then x % 65536 % 256 else x % 65536 / 256 := by
  subst h
  rfl

theorem u8_load_big (cells : Nat → Nat) (i x : Nat) (h : cells (i / 2) = x) :
    u8_load .ENDIANNESS_BIG cells i =
      if i % 2 = 0 then x % 65536 / 256 else x % 65536 % 256 := by
  subst h
  rfl

theorem u8_load_store_same (host : endianness_t) (cells : Nat → Nat) (i data : Nat) :
    u8_load host (u8_store host cells i data) i = data % 256 := by
  cases host <;> simp only [u8_load, u8_store, Function.update_same] <;> split <;> omega

theorem u8_load_store_other (host : endianness_t) (cells : Nat → Nat) (i j data : Nat)
    (hne : j ≠ i) : u8_load host (u8_store host cells i data) j = u8_load host cells j := by
  rcases Nat.decEq (j / 2) (i / 2) with hcell | hcell
  · cases host <;> simp only [u8_load, u8_store, Function.update_noteq hcell]
  · cases host <;> simp only [u8_load, u8_store, hcell, Function.update_same] <;>
      split <;> split <;> omega

theorem shareram_w_eq (host : endianness_t) (s : thoop2_state) (o v : Nat) (ho : o ≤ 0x7fff) :
    shareram_w host s o v =
      some { s with shareram := u8_store host s.shareram (BYTE_XOR_BE host o) v } := by
  have hb := BYTE_XOR_BE_le host o ho
  unfold shareram_w shareram_bytes
  rw [if_pos (by omega)]

theorem shareram_r_eq (host : endianness_t) (s : thoop2_state) (o : Nat) (ho : o ≤ 0x7fff) :
    shareram_r host s o = some (u8_load host s.shareram (BYTE_XOR_BE host o)) := by
  have hb := BYTE_XOR_BE_le host o ho
  unfold shareram_r shareram_bytes
  rw [if_pos (by omega)]

theorem mcu_hostmem_read_eq (host : endianness_t) (s : thoop2_state) (o : Nat) (ho : o ≤ 0x7fff) :
    mcu_hostmem_read host s (0x8000 + o) = shareram_r host s o := by
  unfold mcu_hostmem_read
  rw [lookup_mcu_hostmem (0x8000 + o) (by omega) (by omega)]
  simp only [Nat.add_sub_cancel_left]

theorem mcu_hostmem_write_eq (host : endianness_t) (s : thoop2_state) (o v : Nat)
    (ho : o ≤ 0x7fff) : mcu_hostmem_write host s (0x8000 + o) v = shareram_w host s o v := by
  unfold mcu_hostmem_write
  rw [lookup_mcu_hostmem (0x8000 + o) (by omega) (by omega)]
  simp only [Nat.add_sub_cancel_left]

/-! ## Bank switching of the OKI sample ROM -/

/-- C1: for every bank index `K < 16` and offset `o ≤ 0xffff`, once
`machine_start` has configured the 16 entries of "okibank", the call
`OKIM6295_bankswitch_w` with `data = K` succeeds, and a read of OKI address
`0x30000 + o` through `oki_map` then returns byte `K * 0x10000 + o` of region
"oki". -/
theorem bankswitch_then_read_page (s : thoop2_state) (K o : Nat) (hK : K < 16)
    (ho : o ≤ 0xffff) :
    ∃ s', OKIM6295_bankswitch_w (machine_start s) K = some s' ∧
      oki_read s' (0x30000 + o) = some (s.oki (K * 0x10000 + o)) := by
  have hmask : K &&& 0x0f = K := by
    have h := Nat.and_pow_two_sub_one_eq_mod K 4
    norm_num at h
    rw [h]
    omega
  have hcfg := machine_start_entries s K hK
  have hsw := bankswitch_of_configured (machine_start s) K (K * 0x10000) (by rw [hmask]; exact hcfg)
  refine ⟨_, hsw, ?_⟩
  unfold oki_read
  rw [oki_rom_offset_banked _ (0x30000 + o) (K * 0x10000) (by omega) (by omega)
    (by simp only [hmask]; exact hcfg)]
  simp only [oki_region_bytes]
  rw [if_pos (by omega)]
  have he : K * 0x10000 + (0x30000 + o - 0x30000) = K * 0x10000 + o := by omega
  rw [he]
  rfl

/-- Evaluation of C1 on `sample_state` with `K = 5`, `o = 0x1234`: the byte
read at OKI address `0x31234` is byte `0x51234` of the region, `0x34`. -/
theorem bankswitch_then_read_page_witness :
    ∃ s', OKIM6295_bankswitch_w (machine_start sample_state) 5 = some s' ∧
      oki_read s' (0x30000 + 0x1234) = some 0x34 :=
  bankswitch_then_read_page sample_state 5 0x1234 (by decide) (by decide)

/-- C2: for every 8-bit `data`, `OKIM6295_bankswitch_w` (after
`machine_start`) succeeds and selects entry `data & 0x0f`, which is below 16
and is one of the entries `machine_start` configured (its page starts at byte
`(data & 0x0f) * 0x10000`); every address `0x30000 + o`, `o ≤ 0xffff`, of the
bank window then fetches region offset `(data & 0x0f) * 0x10000 + o`, which
lies inside the `0x100000`-byte region "oki", so the read yields a byte; and
`(data & 0x0f) * 0x10000 + 0xffff < 0x100000`. -/
theorem bankswitch_never_out_of_bounds (s : thoop2_state) (data : Nat) (hdata : data ≤ 255) :
    data &&& 0x0f < 16 ∧
    (data &&& 0x0f) * 0x10000 + 0xffff < 0x100000 ∧
    ∃ s', OKIM6295_bankswitch_w (machine_start s) data = some s' ∧
      s'.okibank.curentry = data &&& 0x0f ∧
      s'.okibank.entries[data &&& 0x0f]? = some (some ((data &&& 0x0f) * 0x10000)) ∧
      ∀ o, o ≤ 0xffff →
        oki_rom_offset s' (0x30000 + o) = some ((data &&& 0x0f) * 0x10000 + o) ∧
        (data &&& 0x0f) * 0x10000 + o < oki_region_bytes ∧
        oki_read s' (0x30000 + o) = some (s'.oki ((data &&& 0x0f) * 0x10000 + o)) := by
  have _ := hdata
  have hlt := and_0x0f_lt data
  have hcfg := machine_start_entries s (data &&& 0x0f) hlt
  have hsw := bankswitch_of_configured (machine_start s) data _ hcfg
  generalize data &&& 0x0f = d at hlt hcfg hsw ⊢
  generalize machine_start s = t at hcfg hsw ⊢
  refine ⟨hlt, by omega, { t with okibank := { t.okibank with curentry := d } }, hsw, rfl,
    hcfg, ?_⟩
  intro o ho
  have hoff := oki_rom_offset_banked { t with okibank := { t.okibank with curentry := d } }
    (0x30000 + o) (d * 0x10000) (by omega) (by omega) hcfg
  have he : d * 0x10000 + (0x30000 + o - 0x30000) = d * 0x10000 + o := by omega
  rw [he] at hoff
  refine ⟨hoff, by simp only [oki_region_bytes]; omega, ?_⟩
  unfold oki_read
  rw [hoff]
  simp only [oki_region_bytes]
  rw [if_pos (by omega)]

/-- Evaluation of C2 on `sample_state` with `data = 0xff`: entry 15 is
selected and the last byte of the window is the last byte of the region. -/
theorem bankswitch_never_out_of_bounds_witness :
    (0xff &&& 0x0f < 16 ∧ (0xff &&& 0x0f) * 0x10000 + 0xffff < 0x100000) ∧
    ∃ s', OKIM6295_bankswitch_w (machine_start sample_state) 0xff = some s' ∧
      oki_rom_offset s' (0x30000 + 0xffff) = some 0xfffff := by
  obtain ⟨h1, h2, s', hs, _, _, hall⟩ :=
    bankswitch_never_out_of_bounds sample_state 0xff (by decide)
  exact ⟨⟨h1, h2⟩, s', hs, (hall 0xffff (by decide)).1⟩

/-- C6: a bank-switch write changes only the bank selector. On any state
whose 16 bank entries are configured, `OKIM6295_bankswitch_w` succeeds for
every data byte; afterwards region "oki", the table of bank entries and the
shared RAM are unchanged; every address `a` of the fixed area
`0x00000..0x2ffff` reads region byte `a` before and after; and every address
outside `0x30000..0x3ffff` reads the same before and after. -/
theorem bankswitch_changes_only_selector (s : thoop2_state) (data : Nat) (hdata : data ≤ 255)
    (hcfg : ∀ i, i < 16 → s.okibank.entries[i]? = some (some (i * 0x10000))) :
    ∃ s', OKIM6295_bankswitch_w s data = some s' ∧
      s'.oki = s.oki ∧
      s'.okibank.entries = s.okibank.entries ∧
      s'.shareram = s.shareram ∧
      (∀ a, a ≤ 0x2ffff → oki_read s a = some (s.oki a) ∧ oki_read s' a = some (s.oki a)) ∧
      (∀ a, ¬ (0x30000 ≤ a ∧ a ≤ 0x3ffff) → oki_read s' a = oki_read s a) := by
  have _ := hdata
  have hsw := bankswitch_of_configured s data _ (hcfg (data &&& 0x0f) (and_0x0f_lt data))
  refine ⟨_, hsw, rfl, rfl, rfl, ?_, ?_⟩
  · intro a ha
    exact ⟨oki_read_fixed s a ha, oki_read_fixed _ a ha⟩
  · intro a ha
    rcases Nat.lt_or_ge a 0x30000 with hlt | hge
    · rw [oki_read_fixed s a (by omega), oki_read_fixed _ a (by omega)]
    · rw [oki_read_unmapped s a (by omega), oki_read_unmapped _ a (by omega)]

/-- Evaluation of C6 on `machine_start sample_state` with `data = 3`: the
write succeeds and address `0x12345` of the fixed area still reads `0x45`. -/
theorem bankswitch_changes_only_selector_witness :
    ∃ s', OKIM6295_bankswitch_w (machine_start sample_state) 3 = some s' ∧
      s'.oki = (machine_start sample_state).oki ∧ oki_read s' 0x12345 = some 0x45 := by
  obtain ⟨s', hs, hoki, _, _, hfix, _⟩ :=
    bankswitch_changes_only_selector (machine_start sample_state) 3 (by decide)
      (fun i hi => machine_start_entries sample_state i hi)
  exact ⟨s', hs, hoki, (hfix 0x12345 (by decide)).2⟩

/-! ## Shared RAM between the 68000 and the DS5002FP -/

/-- C3: for every offset `o ≤ 0x7fff` of the MCU window and every byte `v`,
`shareram_w(o, v)` succeeds and a following `shareram_r(o)` returns `v`, on a
little-endian host (`BYTE_XOR_BE(o) = o xor 1`) and on a big-endian host
(`BYTE_XOR_BE(o) = o`) alike; the same holds for the MCU's accesses at
address `0x8000 + o` dispatched through `mcu_hostmem_map`. -/
theorem shareram_write_then_read (host : endianness_t) (s : thoop2_state) (o v : Nat)
    (ho : o ≤ 0x7fff) (hv : v ≤ 255) :
    BYTE_XOR_BE .ENDIANNESS_LITTLE o = o ^^^ 1 ∧
    BYTE_XOR_BE .ENDIANNESS_BIG o = o ∧
    ∃ s', shareram_w host s o v = some s' ∧
      shareram_r host s' o = some v ∧
      mcu_hostmem_write host s (0x8000 + o) v = some s' ∧
      mcu_hostmem_read host s' (0x8000 + o) = some v := by
  have hw := shareram_w_eq host s o v ho
  have hr : shareram_r host
      { s with shareram := u8_store host s.shareram (BYTE_XOR_BE host o) v } o = some v := by
    rw [shareram_r_eq _ _ o ho]
    simp only
    rw [u8_load_store_same, Nat.mod_eq_of_lt (by omega)]
  refine ⟨rfl, BYTE_XOR_BE_big o, _, hw, hr, ?_, ?_⟩
  · rw [mcu_hostmem_write_eq host s o v ho, hw]
  · rw [mcu_hostmem_read_eq host _ o ho, hr]

/-- Evaluation of C3 on `sample_state`, little-endian host, `o = 0x1235`,
`v = 0xab`. -/
theorem shareram_write_then_read_witness :
    ∃ s', shareram_w .ENDIANNESS_LITTLE sample_state 0x1235 0xab = some s' ∧
      shareram_r .ENDIANNESS_LITTLE s' 0x1235 = some 0xab := by
  obtain ⟨_, _, s', hw, hr, _, _⟩ :=
    shareram_write_then_read .ENDIANNESS_LITTLE sample_state 0x1235 0xab (by decide) (by decide)
  exact ⟨s', hw, hr⟩

/-- C4: with "shareram" held as 0x4000 16-bit cells in host byte order, for
every word index `w < 0x4000` and 16-bit value `v`, after the 68000 writes
`v` at address `0xfe8000 + 2w` the MCU reads `v >> 8` at offset `2w` and
`v & 0xff` at offset `2w + 1` through `shareram_r` (and at addresses
`0x8000 + 2w`, `0x8000 + 2w + 1` of its window), whatever the host byte
order; and in every state MCU address `0x8000 + o` reads the byte that the
68000 reads at byte address `0xfe8000 + o`. -/
theorem shareram_same_byte_for_both_cpus (host : endianness_t) (s : thoop2_state) (w v : Nat)
    (hw : w < 0x4000) (hv : v < 0x10000) :
    (∃ s', maincpu_write_word s (0xfe8000 + 2 * w) v = some s' ∧
      shareram_r host s' (2 * w) = some (v >>> 8) ∧
      shareram_r host s' (2 * w + 1) = some (v &&& 0xff) ∧
      mcu_hostmem_read host s' (0x8000 + 2 * w) = some (v >>> 8) ∧
      mcu_hostmem_read host s' (0x8000 + (2 * w + 1)) = some (v &&& 0xff)) ∧
    (∀ (t : thoop2_state) (o : Nat), o ≤ 0x7fff →
      mcu_hostmem_read host t (0x8000 + o) = maincpu_read_byte t (0xfe8000 + o)) := by
  have hshift : v >>> 8 = v / 256 := by
    rw [Nat.shiftRight_eq_div_pow]
  have hand : v &&& 0xff = v % 256 := Nat.and_pow_two_sub_one_eq_mod v 8
  have hcell : (0xfe8000 + 2 * w - 0xfe8000) / 2 = w := by omega
  have hwr : maincpu_write_word s (0xfe8000 + 2 * w) v =
      some { s with shareram := Function.update s.shareram w (v % 65536) } := by
    unfold maincpu_write_word
    rw [lookup_thoop2_shareram _ (by omega) (by omega)]
    simp only [hcell]
  have hhi : shareram_r host { s with shareram := Function.update s.shareram w (v % 65536) }
      (2 * w) = some (v >>> 8) := by
    rw [shareram_r_eq _ _ _ (by omega), hshift]
    have hd := BYTE_XOR_BE_div_two host (2 * w)
    have hd' : BYTE_XOR_BE host (2 * w) / 2 = w := by omega
    have hc : Function.update s.shareram w (v % 65536) (BYTE_XOR_BE host (2 * w) / 2) =
        v % 65536 := by
      rw [hd']
      exact Function.update_same _ _ _
    cases host
    · have hm := BYTE_XOR_BE_little_mod_two (2 * w)
      rw [u8_load_little _ _ _ hc, if_neg (by omega)]
      exact congrArg some (by omega)
    · have hb := BYTE_XOR_BE_big (2 * w)
      rw [u8_load_big _ _ _ hc, if_pos (by omega)]
      exact congrArg some (by omega)
  have hlo : shareram_r host { s with shareram := Function.update s.shareram w (v % 65536) }
      (2 * w + 1) = some (v &&& 0xff) := by
    rw [shareram_r_eq _ _ _ (by omega), hand]
    have hd := BYTE_XOR_BE_div_two host (2 * w + 1)
    have hd' : BYTE_XOR_BE host (2 * w + 1) / 2 = w := by omega
    have hc : Function.update s.shareram w (v % 65536) (BYTE_XOR_BE host (2 * w + 1) / 2) =
        v % 65536 := by
      rw [hd']
      exact Function.update_same _ _ _
    cases host
    · have hm := BYTE_XOR_BE_little_mod_two (2 * w + 1)
      rw [u8_load_little _ _ _ hc, if_pos (by omega)]
      exact congrArg some (by omega)
    · have hb := BYTE_XOR_BE_big (2 * w + 1)
      rw [u8_load_big _ _ _ hc, if_neg (by omega)]
      exact congrArg some (by omega)
  refine ⟨⟨_, hwr, hhi, hlo, ?_, ?_⟩, ?_⟩
  · rw [mcu_hostmem_read_eq host _ _ (by omega), hhi]
  · rw [mcu_hostmem_read_eq host _ _ (by omega), hlo]
  · intro t o ho
    rw [mcu_hostmem_read_eq host t o ho, shareram_r_eq host t o ho]
    unfold maincpu_read_byte
    rw [lookup_thoop2_shareram _ (by omega) (by omega)]
    simp only [Nat.add_sub_cancel_left]
    have hd := BYTE_XOR_BE_div_two host o
    cases host
    · have hm := BYTE_XOR_BE_little_mod_two o
      simp only [u8_load, hd]
      exact congrArg some (by split <;> split <;> omega)
    · rw [BYTE_XOR_BE_big]
      simp only [u8_load]

/-- Evaluation of C4 on `sample_state`, big-endian host, word `0x123`,
value `0xbeef`: the MCU reads `0xbe` at offset `0x246` and `0xef` at `0x247`. -/
theorem shareram_same_byte_for_both_cpus_witness :
    ∃ s', maincpu_write_word sample_state (0xfe8000 + 2 * 0x123) 0xbeef = some s' ∧
      shareram_r .ENDIANNESS_BIG s' (2 * 0x123) = some 0xbe ∧
      shareram_r .ENDIANNESS_BIG s' (2 * 0x123 + 1) = some 0xef := by
  obtain ⟨⟨s', hw, hhi, hlo, _, _⟩, _⟩ :=
    shareram_same_byte_for_both_cpus .ENDIANNESS_BIG sample_state 0x123 0xbeef
      (by decide) (by decide)
  exact ⟨s', hw, hhi, hlo⟩

/-- C7: for every offset `o ≤ 0x7fff` and byte `v`, `shareram_w(o, v)`
succeeds and writes exactly one byte of the shared block: the index
`BYTE_XOR_BE(o)` is itself within `0..0x7fff`, that byte becomes `v`, and
every other byte of the block keeps its value, so other state is untouched
and `shareram_r(o')` is unchanged for every `o' ≠ o` in `0..0x7fff`. Hence a
read returns the most recently written value: after a second write of `v2`
at `o2`, offset `o` reads `v2` if `o2 = o` and still `v` otherwise. -/
theorem shareram_write_changes_one_byte (host : endianness_t) (s : thoop2_state) (o v : Nat)
    (ho : o ≤ 0x7fff) (hv : v ≤ 255) :
    BYTE_XOR_BE host o ≤ 0x7fff ∧
    ∃ s', shareram_w host s o v = some s' ∧
      s'.oki = s.oki ∧ s'.okibank = s.okibank ∧
      u8_load host s'.shareram (BYTE_XOR_BE host o) = v ∧
      (∀ i, i ≠ BYTE_XOR_BE host o →
        u8_load host s'.shareram i = u8_load host s.shareram i) ∧
      shareram_r host s' o = some v ∧
      (∀ o', o' ≤ 0x7fff → o' ≠ o → shareram_r host s' o' = shareram_r host s o') ∧
      (∀ o2 v2, o2 ≤ 0x7fff → v2 ≤ 255 →
        ∃ s'', shareram_w host s' o2 v2 = some s'' ∧
          shareram_r host s'' o = some (if o2 = o then v2 else v)) := by
  have hw := shareram_w_eq host s o v ho
  have hsame : u8_load host (u8_store host s.shareram (BYTE_XOR_BE host o) v)
      (BYTE_XOR_BE host o) = v := by
    rw [u8_load_store_same, Nat.mod_eq_of_lt (by omega)]
  have hr : shareram_r host
      { s with shareram := u8_store host s.shareram (BYTE_XOR_BE host o) v } o = some v := by
    rw [shareram_r_eq _ _ o ho]
    exact congrArg some hsame
  refine ⟨BYTE_XOR_BE_le host o ho, _, hw, rfl, rfl, hsame, ?_, hr, ?_, ?_⟩
  · intro i hi
    exact u8_load_store_other host s.shareram _ i v hi
  · intro o' ho' hne
    rw [shareram_r_eq _ _ o' ho', shareram_r_eq _ _ o' ho']
    refine congrArg some (u8_load_store_other host s.shareram _ _ v ?_)
    intro h
    exact hne (BYTE_XOR_BE_injective host o' o h)
  · intro o2 v2 ho2 hv2
    refine ⟨_, shareram_w_eq host _ o2 v2 ho2, ?_⟩
    rw [shareram_r_eq _ _ o ho]
    refine congrArg some ?_
    simp only
    by_cases h : o2 = o
    · subst h
      rw [if_pos rfl, u8_load_store_same, Nat.mod_eq_of_lt (by omega)]
    · rw [if_neg h, u8_load_store_other _ _ _ _ _
        (fun hx => h (BYTE_XOR_BE_injective host o o2 hx).symm)]
      exact hsame

/-- Evaluation of C7 on `sample_state`, little-endian host: writing `0xab` at
offset `0x1234` leaves the neighbouring offset `0x1235` (the other half of the
same 16-bit cell) reading what it read before. -/
theorem shareram_write_changes_one_byte_witness :
    ∃ s', shareram_w .ENDIANNESS_LITTLE sample_state 0x1234 0xab = some s' ∧
      shareram_r .ENDIANNESS_LITTLE s' 0x1234 = some 0xab ∧
      shareram_r .ENDIANNESS_LITTLE s' 0x1235 =
        shareram_r .ENDIANNESS_LITTLE sample_state 0x1235 := by
  obtain ⟨_, s', hw, _, _, _, _, hr, hother, _⟩ :=
    shareram_write_changes_one_byte .ENDIANNESS_LITTLE sample_state 0x1234 0xab
      (by decide) (by decide)
  exact ⟨s', hw, hr, hother 0x1235 (by decide) (by decide)⟩

/-! ## Address maps -/

theorem index_unique_of_pairwise (map : List address_map_entry) (a : Nat)
    (h : map.Pairwise (fun e1 e2 => ¬ (e1.covers a = true ∧ e2.covers a = true)))
    (i j : Nat) (e1 e2 : address_map_entry) (h1 : map[i]? = some e1) (h2 : map[j]? = some e2)
    (c1 : e1.covers a = true) (c2 : e2.covers a = true) : i = j := by
  rw [List.pairwise_iff_getElem] at h
  obtain ⟨hi, rfl⟩ := List.getElem?_eq_some.mp h1
  obtain ⟨hj, rfl⟩ := List.getElem?_eq_some.mp h2
  rcases Nat.lt_trichotomy i j with hlt | heq | hgt
  · exact absurd ⟨c1, c2⟩ (h i j hi hj hlt)
  · exact heq
  · exact absurd ⟨c2, c1⟩ (h j i hj hi hgt)

theorem lookup_of_pairwise (map : List address_map_entry) (a : Nat)
    (h : map.Pairwise (fun e1 e2 => ¬ (e1.covers a = true ∧ e2.covers a = true)))
    (e : address_map_entry) (he : e ∈ map) (hc : e.covers a = true) : lookup map a = some e := by
  unfold lookup
  cases hf : map.find? (fun e => e.covers a) with
  | none =>
    rw [List.find?_eq_none] at hf
    exact absurd hc (hf e he)
  | some e' =>
    have hc' : e'.covers a = true :=
      List.find?_some (p := fun e : address_map_entry => e.covers a) hf
    have he' : e' ∈ map := List.mem_of_find?_eq_some hf
    obtain ⟨i, hi⟩ := List.mem_iff_getElem?.mp he
    obtain ⟨j, hj⟩ := List.mem_iff_getElem?.mp he'
    have hij := index_unique_of_pairwise map a h i j e e' hi hj hc hc'
    subst hij
    rw [hi] at hj
    exact hj.symm

theorem thoop2_map_pairwise (a : Nat) :
    thoop2_map.Pairwise (fun e1 e2 => ¬ (e1.covers a = true ∧ e2.covers a = true)) := by
  have hc := clear_0x70 a
  unfold thoop2_map
  simp only [List.pairwise_cons, List.mem_cons, forall_eq_or_imp, List.not_mem_nil,
    false_implies, implies_true, List.Pairwise.nil, and_true, covers_iff, Nat.and_zero,
    Nat.xor_zero, hc]
  omega

theorem mcu_hostmem_map_pairwise (a : Nat) :
    mcu_hostmem_map.Pairwise (fun e1 e2 => ¬ (e1.covers a = true ∧ e2.covers a = true)) := by
  unfold mcu_hostmem_map
  exact List.pairwise_singleton _ _

theorem oki_map_pairwise (a : Nat) :
    oki_map.Pairwise (fun e1 e2 => ¬ (e1.covers a = true ∧ e2.covers a = true)) := by
  unfold oki_map
  simp only [List.pairwise_cons, List.mem_cons, forall_eq_or_imp, List.not_mem_nil,
    false_implies, implies_true, List.Pairwise.nil, and_true, covers_iff, Nat.and_zero,
    Nat.xor_zero]
  omega

/-- C5: in each of the three address maps of the file (`thoop2_map`,
`mcu_hostmem_map`, `oki_map`) no address `a` is covered by two entries (two
positions whose entries both cover `a` are the same position), so the lookup
of `a` returns exactly the entry that covers it. The `AM_SELECT(0x000070)`
entry of `thoop2_map` is counted as covering `0x70000a + 0x10*k ..
0x70000b + 0x10*k` for `k` in `0..7`; the two entries of `oki_map` together
cover exactly `0x00000..0x3ffff`. -/
theorem address_maps_unambiguous (a : Nat) :
    (∀ map, map ∈ [thoop2_map, mcu_hostmem_map, oki_map] →
      (∀ (i j : Nat) (e1 e2 : address_map_entry), map[i]? = some e1 → map[j]? = some e2 →
        e1.covers a = true → e2.covers a = true → i = j) ∧
      (∀ e, e ∈ map → e.covers a = true → lookup map a = some e)) ∧
    (∀ e, e ∈ thoop2_map → e.addrselect = 0x000070 →
      (e.covers a = true ↔
        ∃ k, k ≤ 7 ∧ 0x70000a + 0x10 * k ≤ a ∧ a ≤ 0x70000b + 0x10 * k)) ∧
    ((∃ e, e ∈ oki_map ∧ e.covers a = true) ↔ a ≤ 0x3ffff) := by
  refine ⟨?_, ?_, ?_⟩
  · intro map hmap
    have hp : map.Pairwise (fun e1 e2 => ¬ (e1.covers a = true ∧ e2.covers a = true)) := by
      simp only [List.mem_cons, List.not_mem_nil, or_false] at hmap
      rcases hmap with rfl | rfl | rfl
      · exact thoop2_map_pairwise a
      · exact mcu_hostmem_map_pairwise a
      · exact oki_map_pairwise a
    exact ⟨index_unique_of_pairwise map a hp, lookup_of_pairwise map a hp⟩
  · intro e he hsel
    have hc := clear_0x70 a
    unfold thoop2_map at he
    simp only [List.mem_cons, List.not_mem_nil, or_false] at he
    rcases he with rfl | rfl | rfl | rfl | rfl | rfl | rfl | rfl | rfl | rfl | rfl | rfl | rfl |
      rfl | rfl | rfl <;> first | (exact absurd hsel (by decide)) | skip
    rw [covers_iff]
    simp only [hc]
    constructor
    · intro h
      exact ⟨(a / 16) % 8, by omega, by omega, by omega⟩
    · rintro ⟨k, hk, h1, h2⟩
      omega
  · unfold oki_map
    simp only [List.mem_cons, List.not_mem_nil, or_false, exists_eq_or_imp, exists_eq_left,
      covers_iff, Nat.and_zero, Nat.xor_zero]
    omega


/-! ## DIP switch ports -/

theorem and_eq_self_of_and_not_mask (v mask : Nat) (hv : v < 4294967296)
    (h : and_not_mask v mask = 0) : v &&& mask = v := by
  apply Nat.eq_of_testBit_eq
  intro i
  have hi := congrArg (fun n => Nat.testBit n i) h
  have e : (0xffffffff : Nat) = 2 ^ 32 - 1 := by norm_num
  simp only [and_not_mask, e, Nat.testBit_and, Nat.testBit_xor, Nat.testBit_two_pow_sub_one,
    Nat.zero_testBit] at hi
  rw [Nat.testBit_and]
  rcases Nat.lt_or_ge i 32 with hlt | hge
  · simp only [hlt, decide_True, Bool.true_xor] at hi
    cases hb : v.testBit i <;> cases hm : mask.testBit i <;> simp_all
  · have hvi : v.testBit i = false := by
      apply Nat.testBit_lt_two_pow
      calc v < 2 ^ 32 := hv
        _ ≤ 2 ^ i := Nat.pow_le_pow_right (by decide) hge
    rw [hvi]
    rfl

theorem le_mask_of_and_not_mask (v mask : Nat) (hv : v < 4294967296)
    (h : and_not_mask v mask = 0) : v ≤ mask := by
  have h2 := and_eq_self_of_and_not_mask v mask hv h
  rw [← h2]
  exact Nat.and_le_right

/-- C8: every `PORT_DIPNAME(mask, default, ...)` field of ports DSW1 and DSW2
is a well-formed discrete value set: each listed `PORT_DIPSETTING` value `v`
satisfies `v & ~mask = 0`, the listed values are pairwise distinct, the
default is one of them, and every (32-bit) value with `v & ~mask = 0` is
listed; Coin_B and Coin_A list 8 settings, Difficulty and Lives 4. Within
each port the field masks, the `0x80` service switch of DSW2 included, are
pairwise disjoint and their union is `0xff`. -/
theorem dip_switch_fields_well_formed :
    (∀ f, f ∈ DSW1 ++ DSW2 →
      ∀ (mask defvalue : Nat) (label : dip_label) (settings : List Nat),
        f = .PORT_DIPNAME mask defvalue label settings →
          (∀ v, v ∈ settings → and_not_mask v mask = 0) ∧
          settings.Nodup ∧
          defvalue ∈ settings ∧
          (∀ v, v < 4294967296 → and_not_mask v mask = 0 → v ∈ settings) ∧
          (label = .Coin_B ∨ label = .Coin_A → settings.length = 8) ∧
          (label = .Difficulty ∨ label = .Lives → settings.length = 4)) ∧
    (∀ port, port ∈ [DSW1, DSW2] →
      (port.map port_field.mask).Pairwise (fun m1 m2 => m1 &&& m2 = 0) ∧
      (port.map port_field.mask).foldl (fun acc m => acc ||| m) 0 = 0xff) := by
  constructor
  · intro f hf mask defvalue label settings hfield
    subst hfield
    simp only [DSW1, DSW2, List.cons_append, List.nil_append, List.mem_cons,
      List.not_mem_nil, or_false, port_field.PORT_DIPNAME.injEq, reduceCtorEq] at hf
    have key : ∀ (m : Nat) (l : List Nat),
        (∀ v, v ≤ m → and_not_mask v m = 0 → v ∈ l) →
        ∀ v, v < 4294967296 → and_not_mask v m = 0 → v ∈ l :=
      fun m l hall v hv h => hall v (le_mask_of_and_not_mask v m hv h) h
    rcases hf with h | h | h | h | h | h | h | h | h <;>
      obtain ⟨rfl, rfl, rfl, rfl⟩ := h <;>
      exact ⟨by decide, by decide, by decide, key _ _ (by decide), by decide, by decide⟩
  · intro port hport
    simp only [List.mem_cons, List.not_mem_nil, or_false] at hport
    rcases hport with rfl | rfl <;> exact ⟨by decide, by decide⟩

/-! ## Graphics layouts -/

theorem planeoffset_getD :
    ∀ p, p < 4 →
      thoop2_tilelayout.planeoffset.getD p 0 = 8 * (1 - p % 2) + 0x2000000 * (p / 2) ∧
      thoop2_tilelayout_16.planeoffset.getD p 0 = 8 * (1 - p % 2) + 0x2000000 * (p / 2) := by
  decide

theorem xoffset_getD_8 : ∀ x, x < 8 → thoop2_tilelayout.xoffset.getD x 0 = x := by
  decide

theorem yoffset_getD_8 : ∀ y, y < 8 → thoop2_tilelayout.yoffset.getD y 0 = 16 * y := by
  decide

theorem xoffset_getD_16 :
    ∀ x, x < 16 → thoop2_tilelayout_16.xoffset.getD x 0 = x % 8 + 256 * (x / 8) := by
  decide

theorem yoffset_getD_16 : ∀ y, y < 16 → thoop2_tilelayout_16.yoffset.getD y 0 = 16 * y := by
  decide

theorem bitaddr_8 (t p x y : Nat) (hp : p < 4) (hx : x < 8) (hy : y < 8) :
    thoop2_tilelayout.bitaddr t p x y =
      t * 128 + (8 * (1 - p % 2) + 0x2000000 * (p / 2)) + x + 16 * y := by
  unfold gfx_layout.bitaddr
  rw [(planeoffset_getD p hp).1, xoffset_getD_8 x hx, yoffset_getD_8 y hy]
  rfl

theorem bitaddr_16 (t p x y : Nat) (hp : p < 4) (hx : x < 16) (hy : y < 16) :
    thoop2_tilelayout_16.bitaddr t p x y =
      t * 512 + (8 * (1 - p % 2) + 0x2000000 * (p / 2)) + (x % 8 + 256 * (x / 8)) + 16 * y := by
  unfold gfx_layout.bitaddr
  rw [(planeoffset_getD p hp).2, xoffset_getD_16 x hx, yoffset_getD_16 y hy]
  rfl

/-- C9: for each entry of `GFXDECODE_START( thoop2 )`, that is for each of
the two layouts (`thoop2_tilelayout`: 8x8, `0x400000/16` tiles;
`thoop2_tilelayout_16`: 16x16, `0x400000/64` tiles), the bit address
`tile * charincrement + planeoffset[p] + xoffset[x] + yoffset[y]` is, over
all valid tiles, planes `p < 4` and pixels `(x, y)`, a bijection onto the bits
`0 .. 0x800000*8 - 1` of region "gfx1": every decoded bit lies in the
region, no two `(tile, p, x, y)` share a bit, and every bit is decoded. -/
theorem gfx_bit_addresses_bijective (e : gfxdecode_entry) (he : e ∈ gfxdecode_thoop2) :
    (∀ t p x y, t < e.layout.total → p < e.layout.planes → x < e.layout.width →
      y < e.layout.height → e.bitaddr t p x y < gfx1_region_bytes * 8) ∧
    (∀ t p x y t' p' x' y', t < e.layout.total → p < e.layout.planes → x < e.layout.width →
      y < e.layout.height → t' < e.layout.total → p' < e.layout.planes →
      x' < e.layout.width → y' < e.layout.height →
      e.bitaddr t p x y = e.bitaddr t' p' x' y' → t = t' ∧ p = p' ∧ x = x' ∧ y = y') ∧
    (∀ b, b < gfx1_region_bytes * 8 →
      ∃ t p x y, t < e.layout.total ∧ p < e.layout.planes ∧ x < e.layout.width ∧
        y < e.layout.height ∧ e.bitaddr t p x y = b) := by
  simp only [gfxdecode_thoop2, List.mem_cons, List.not_mem_nil, or_false] at he
  rcases he with rfl | rfl
  · have ht : thoop2_tilelayout.total = 0x40000 := rfl
    have hpl : thoop2_tilelayout.planes = 4 := rfl
    have hwd : thoop2_tilelayout.width = 8 := rfl
    have hht : thoop2_tilelayout.height = 8 := rfl
    simp only [gfxdecode_entry.bitaddr, gfx1_region_bytes, ht, hpl, hwd, hht]
    refine ⟨?_, ?_, ?_⟩
    · intro t p x y h1 h2 h3 h4
      rw [bitaddr_8 t p x y h2 h3 h4]
      omega
    · intro t p x y t' p' x' y' h1 h2 h3 h4 h1' h2' h3' h4' h
      rw [bitaddr_8 t p x y h2 h3 h4, bitaddr_8 t' p' x' y' h2' h3' h4'] at h
      omega
    · intro b hb
      refine ⟨b % 0x2000000 / 128, 2 * (b / 0x2000000) + (1 - b % 16 / 8), b % 8,
        b % 128 / 16, by omega, by omega, by omega, by omega, ?_⟩
      rw [bitaddr_8 _ _ _ _ (by omega) (by omega) (by omega)]
      omega
  · have ht : thoop2_tilelayout_16.total = 0x10000 := rfl
    have hpl : thoop2_tilelayout_16.planes = 4 := rfl
    have hwd : thoop2_tilelayout_16.width = 16 := rfl
    have hht : thoop2_tilelayout_16.height = 16 := rfl
    simp only [gfxdecode_entry.bitaddr, gfx1_region_bytes, ht, hpl, hwd, hht]
    refine ⟨?_, ?_, ?_⟩
    · intro t p x y h1 h2 h3 h4
      rw [bitaddr_16 t p x y h2 h3 h4]
      omega
    · intro t p x y t' p' x' y' h1 h2 h3 h4 h1' h2' h3' h4' h
      rw [bitaddr_16 t p x y h2 h3 h4, bitaddr_16 t' p' x' y' h2' h3' h4'] at h
      omega
    · intro b hb
      refine ⟨b % 0x2000000 / 512, 2 * (b / 0x2000000) + (1 - b % 16 / 8),
        b % 8 + 8 * (b % 512 / 256), b % 256 / 16, by omega, by omega, by omega, by omega, ?_⟩
      rw [bitaddr_16 _ _ _ _ (by omega) (by omega) (by omega)]
      omega

/-- Evaluation of C9 on the 16x16 entry: the last bit of region "gfx1",
`0x800000*8 - 1`, is decoded by some valid `(tile, plane, x, y)`, and the
pixel (15, 15) of plane 0 of the last tile decodes a bit inside the region. -/
theorem gfx_bit_addresses_bijective_witness :
    (∃ t p x y, t < 0x400000 / 64 ∧ p < 4 ∧ x < 16 ∧ y < 16 ∧
      thoop2_tilelayout_16.bitaddr t p x y = 0x800000 * 8 - 1) ∧
    thoop2_tilelayout_16.bitaddr (0x400000 / 64 - 1) 0 15 15 < 0x800000 * 8 := by
  obtain ⟨hin, _, hsurj⟩ :=
    gfx_bit_addresses_bijective ⟨0x000000, thoop2_tilelayout_16, 0, 64⟩ (by decide)
  obtain ⟨t, p, x, y, h1, h2, h3, h4, h5⟩ := hsurj (0x800000 * 8 - 1) (by decide)
  refine ⟨⟨t, p, x, y, h1, h2, h3, h4, ?_⟩, ?_⟩
  · simpa only [gfxdecode_entry.bitaddr, Nat.zero_mul, Nat.zero_add] using h5
  · simpa only [gfxdecode_entry.bitaddr, Nat.zero_mul, Nat.zero_add] using
      hin (0x400000 / 64 - 1) 0 15 15 (by decide) (by decide) (by decide) (by decide)

/-- C10: the 16x16 layout is the 8x8 layout regrouped. For every 16x16 tile
`n < 0x400000/64`, plane `p < 4` and pixel `(x, y)` with `x, y < 16`, the bit
address that `thoop2_tilelayout_16` gives `(n, p, x, y)` is the bit address
that `thoop2_tilelayout` gives 8x8 tile `4*n + 2*(x / 8) + (y / 8)` (a valid
8x8 tile index), plane `p`, pixel `(x mod 8, y mod 8)`. -/
theorem tilelayout_16_is_tilelayout_regrouped (n p x y : Nat) (hn : n < 0x400000 / 64)
    (hp : p < 4) (hx : x < 16) (hy : y < 16) :
    thoop2_tilelayout_16.bitaddr n p x y =
      thoop2_tilelayout.bitaddr (4 * n + 2 * (x / 8) + y / 8) p (x % 8) (y % 8) ∧
    4 * n + 2 * (x / 8) + y / 8 < thoop2_tilelayout.total := by
  have ht : thoop2_tilelayout.total = 0x40000 := rfl
  rw [bitaddr_16 n p x y hp hx hy,
    bitaddr_8 _ p (x % 8) (y % 8) hp (Nat.mod_lt _ (by decide)) (Nat.mod_lt _ (by decide)), ht]
  omega

/-- Evaluation of C10 at tile 1, plane 2, pixel (9, 10): both layouts read
bit `0x20003a9` of the region, the 16x16 one as tile 1 and the 8x8 one as
tile `4*1 + 2*1 + 1 = 7`, pixel (1, 2). -/
theorem tilelayout_16_is_tilelayout_regrouped_witness :
    thoop2_tilelayout_16.bitaddr 1 2 9 10 = thoop2_tilelayout.bitaddr 7 2 1 2 ∧
    thoop2_tilelayout_16.bitaddr 1 2 9 10 = 0x20003a9 := by
  have h := (tilelayout_16_is_tilelayout_regrouped 1 2 9 10 (by decide) (by decide) (by decide)
    (by decide)).1
  exact ⟨h, by decide⟩

end Thoop2
